import Mathlib

/-!
# Formal model of the multi-room ChatAgent

A shallow embedding of `groups_in_multiple_rooms_with_ai/chat_agent.py`
(class `ChatAgent`), covering:

* the utterance-extraction cleaning applied to reasoning entries in
  `ChatAgent.listen` (lines 271-294),
* the `say` tool (lines 56-67),
* the mutable agent state (`__init__`), `set_all_persons`,
  `start_conversation`, the absentee computation of `_get_system_prompt`
  (line 112), and `listen` (lines 196-305).

Python strings are modelled as `List Char`; the whitespace class is the
ASCII part of Python's (the transcripts in the repository are ASCII).
The external generation call `agent_executor.invoke` is modelled as an
oracle value (`BackendResult`): either it raises, or it returns the list
of new messages, in both cases together with the ordered list of texts
the backend passed to the `say` tool during the call.  The presentation
callbacks (`thoughts_callback`, `say_callback`) are modelled as set;
the calls `listen` makes to them are recorded, in order, in the
`events` component of its result.
-/

namespace ChatAgentModel

/-! ## Python string helpers -/

/-- ASCII whitespace as recognised by Python's `str.strip` and the regex
class in the `\x7bPhase 2\x7d` patterns: space, tab, newline, vertical tab,
form feed, carriage return. -/
def isPySpace (c : Char) : Bool :=
  c == ' ' || c == '\t' || c == '\n' || c == '\x0b' || c == '\x0c' || c == '\r'

/-- Python `str.strip()`: drop whitespace from both ends. -/
def pyStrip (l : List Char) : List Char :=
  ((l.dropWhile isPySpace).reverse.dropWhile isPySpace).reverse

/-- Case-insensitive "starts with": `ciStarts pat l` holds when the first
`pat.length` characters of `l`, lowercased, are exactly `pat`.
Models `re.IGNORECASE` matching of a literal ASCII pattern. -/
def ciStarts : List Char → List Char → Bool
  | [], _ => true
  | _ :: _, [] => false
  | p :: ps, c :: cs => (c.toLower == p) && ciStarts ps cs

/-- Does the list start with a match of the regex fragment matching zero or
more whitespace characters followed by the digit 2?  (The tail of the
pattern in `chat_agent.py` line 275.) -/
def startsWs2 : List Char → Bool
  | [] => false
  | c :: cs => if c == '2' then true else if isPySpace c then startsWs2 cs else false

/-- The characters of the lowercased literal "phase 2". -/
def markerExact : List Char := ['p', 'h', 'a', 's', 'e', ' ', '2']

/-- The characters of the lowercased literal "phase". -/
def markerWord : List Char := ['p', 'h', 'a', 's', 'e']

/-- The exact marker of patterns 1 and 2 in `chat_agent.py` lines 273-274:
under `re.IGNORECASE` both are the literal text "phase 2" (the trailing
character class never moves the match start, which is all truncation uses). -/
def p1Match (l : List Char) : Bool :=
  ciStarts markerExact l

/-- The loose marker of pattern 3 in `chat_agent.py` line 275: "phase",
then any whitespace run, then "2" (case-insensitive). -/
def p3Match (l : List Char) : Bool :=
  ciStarts markerWord l && startsWs2 (l.drop 5)

/-- Leftmost position whose suffix satisfies `pred` — the index
`re.search` / `str.find` reports.  Tries every position `0..l.length`
(the final empty suffix included, matching `re.search`). -/
def firstMatchPos (pred : List Char → Bool) : List Char → Option Nat
  | [] => if pred [] then some 0 else none
  | c :: cs =>
    if pred (c :: cs) then some 0
    else (firstMatchPos pred cs).map (· + 1)

/-- Phase-2 marker truncation, `chat_agent.py` lines 271-284: search the
patterns in order, and on the first that matches cut everything from the
match start onward and strip; patterns 1 and 2 are the same text under
`re.IGNORECASE`, so the loop reduces to the exact marker followed by the
loose one. -/
def stripMarker (x : List Char) : List Char :=
  match firstMatchPos p1Match x with
  | some i => pyStrip (x.take i)
  | none =>
    match firstMatchPos p3Match x with
    | some i => pyStrip (x.take i)
    | none => x

/-- First occurrence of `p` as a substring (Python `str.find`). -/
def substrPos (p l : List Char) : Option Nat :=
  firstMatchPos (fun t => p.isPrefixOf t) l

/-- Pending-utterance truncation, `chat_agent.py` lines 287-290: when the
pending message is non-empty (Python truthiness) and occurs in the text at
a positive index, cut at its first occurrence and strip. -/
def stripPending (p y : List Char) : List Char :=
  if p = [] then y
  else
    match substrPos p y with
    | some k => if 0 < k then pyStrip (y.take k) else y
    | none => y

/-- The utterance-extraction cleaning of one reasoning entry against the
pending utterance `p`: marker truncation, then pending truncation
(`chat_agent.py` lines 271-290). -/
def clean (x p : List Char) : List Char :=
  stripPending p (stripMarker x)

/-- `clean` lifted to `String`. -/
def cleanStr (x p : String) : String :=
  String.mk (clean x.toList p.toList)

/-- No loose-marker match (`p3Match`) begins strictly before the first
exact-marker match (`p1Match`).  Texts violating this are exactly those on
which the pattern loop's early break can leave a loose marker standing in
the truncated prefix, so a second cleaning pass truncates further. -/
def markerConsistent (x : List Char) : Bool :=
  match firstMatchPos p1Match x with
  | none => true
  | some i => (List.range i).all (fun j => !(p3Match (x.drop j)))

/-! ## Data model -/

/-- The LangChain message classes appearing in the history:
`HumanMessage`, `SystemMessage`, `AIMessage`, tool messages. -/
inductive Role where
  | human
  | system
  | ai
  | tool
  deriving DecidableEq, Repr

/-- One entry of the message history: its class and its text content. -/
structure Msg where
  role : Role
  content : String
  deriving DecidableEq, Repr

/-- The mutable fields of a `ChatAgent` that the modelled operations read
or write. -/
structure AgentState where
  agent_said_something : Bool
  pending_message : Option String
  global_message_history : List Msg
  all_persons : List String
  current_conversation_id : Option Int
  current_participants : List String
  deriving DecidableEq, Repr

/-- The state set up by `ChatAgent.__init__`. -/
def initState : AgentState where
  agent_said_something := false
  pending_message := none
  global_message_history := []
  all_persons := []
  current_conversation_id := none
  current_participants := []

/-- `ChatAgent.set_all_persons` (lines 72-78). -/
def setAllPersons (s : AgentState) (persons : List String) : AgentState :=
  { s with all_persons := persons }

/-- Sixty equals signs, the separator of the room-boundary message. -/
def eqLine : String :=
  String.mk (List.replicate 60 '=')

/-- The room-boundary system message text built at line 91. -/
def boundaryText (conversation_id : Int) (participants : List String) : String :=
  "\n" ++ eqLine ++ "\nConversation #" ++ toString conversation_id ++
    " started\nParticipants: " ++ String.intercalate ", " participants ++
    "\n" ++ eqLine

/-- `ChatAgent.start_conversation` (lines 80-99): record the new active
conversation and participants, and append a boundary system message to the
global history.  No validation of any kind is performed. -/
def startConversation (s : AgentState) (conversation_id : Int)
    (participants : List String) : AgentState :=
  { s with
    current_conversation_id := some conversation_id
    current_participants := participants
    global_message_history :=
      s.global_message_history ++ [⟨Role.system, boundaryText conversation_id participants⟩] }

/-- The absentee list computed in `_get_system_prompt` (line 112):
all registered persons not among the current participants, in
registration order. -/
def absentees (s : AgentState) : List String :=
  s.all_persons.filter (fun p => !(s.current_participants.contains p))

/-- The `say` tool (lines 56-67): overwrite the single pending-message
slot and mark that the agent spoke. -/
def sayTool (s : AgentState) (message : String) : AgentState :=
  { s with pending_message := some message, agent_said_something := true }

/-- The outcome of one `agent_executor.invoke` call, as `listen` observes
it.  `sayTexts` are the arguments of the `say`-tool invocations the
backend performed during the call, in order; they mutate the agent state
even when the call then raises.  On normal return the response carries the
full message list, so `result["messages"]` is the input history followed
by `newMessages`. -/
inductive BackendResult where
  | err (sayTexts : List String)
  | ok (sayTexts : List String) (newMessages : List Msg)
  deriving DecidableEq, Repr

/-- The `say`-tool invocation texts of a backend outcome. -/
def BackendResult.sayTexts : BackendResult → List String
  | .err ts => ts
  | .ok ts _ => ts

/-- One call `listen` makes to a presentation callback. -/
inductive SinkCall where
  | thought (text : String)
  | utter (text : String)
  deriving DecidableEq, Repr

/-- Processing of one new message by the thoughts loop (lines 263-294):
an `AIMessage` with non-empty content is cleaned against the pending
message, and forwarded to the thoughts callback only when the cleaned
text is non-empty (line 293).  Returns the text of the callback call made
for this entry, if any. -/
def processEntry (pending : Option String) (m : Msg) : Option String :=
  if m.role = Role.ai ∧ m.content ≠ "" then
    let cleaned := cleanStr m.content (pending.getD "")
    if cleaned ≠ "" then some cleaned else none
  else none

/-- The say-callback calls made at lines 296-298: one call with the
pending message when it is non-empty (Python truthiness), none otherwise. -/
def pendingUtterEvents : Option String → List SinkCall
  | some p => if p ≠ "" then [SinkCall.utter p] else []
  | none => []

/-- The result of one `listen` turn: the updated agent state and the
callback calls made, in order. -/
structure TurnOutput where
  state : AgentState
  events : List SinkCall
  deriving DecidableEq, Repr

/-- The entry of `ChatAgent.listen` (lines 203-209): reset the spoke flag
and the pending slot, and append the incoming message to the global
history. -/
def listenStart (s : AgentState) (who_says message : String) : AgentState :=
  { s with
    agent_said_something := false
    pending_message := none
    global_message_history :=
      s.global_message_history ++ [⟨Role.human, who_says ++ ": " ++ message⟩] }

/-- `ChatAgent.listen` (lines 196-305).  Resets the spoke flag and the
pending slot, appends the incoming message to the global history, then
runs the generation call (whose `say` invocations mutate the state).  On
an exception (`err`) the handler at lines 303-305 swallows it: no
callback runs and no new entry is appended.  On normal return the
thoughts loop runs over every new message first, then the say callback
receives the pending message if it is non-empty, then all new messages
are appended to the history. -/
def listen (s : AgentState) (who_says message : String)
    (backend : BackendResult) : TurnOutput :=
  let s2 := listenStart s who_says message
  match backend with
  | .err sayTexts =>
    { state := sayTexts.foldl sayTool s2, events := [] }
  | .ok sayTexts newMessages =>
    let s3 := sayTexts.foldl sayTool s2
    let thoughtEvents :=
      (newMessages.filterMap (processEntry s3.pending_message)).map SinkCall.thought
    { state := { s3 with global_message_history := s3.global_message_history ++ newMessages }
      events := thoughtEvents ++ pendingUtterEvents s3.pending_message }

/-- The texts of the utterance-sink calls among a turn's events. -/
def utterTexts (evs : List SinkCall) : List String :=
  evs.filterMap (fun e => match e with | .utter t => some t | .thought _ => none)

/-- The texts of the reasoning-sink calls among a turn's events. -/
def thoughtTexts (evs : List SinkCall) : List String :=
  evs.filterMap (fun e => match e with | .thought t => some t | .utter _ => none)

/-- A public operation of `ChatAgent`, for whole-run statements.  The
callback setters touch no modelled state. -/
inductive Op where
  | setAllPersons (persons : List String)
  | startConversation (conversation_id : Int) (participants : List String)
  | setSayCallback
  | setThoughtsCallback
  | listen (who_says message : String) (backend : BackendResult)

/-- The state transition of one operation. -/
def step (s : AgentState) : Op → AgentState
  | .setAllPersons ps => setAllPersons s ps
  | .startConversation cid parts => startConversation s cid parts
  | .setSayCallback => s
  | .setThoughtsCallback => s
  | .listen who msg b => (listen s who msg b).state

/-! ## Character lemmas -/

/-- `Char.ofNat` is the identity on codepoints below the surrogate range. -/
lemma toNat_ofNat_small (n : Nat) (h : n < 55296) : (Char.ofNat n).toNat = n := by
  have hv : n < 55296 ∨ 57343 < n ∧ n < 1114112 := Or.inl h
  rw [Char.ofNat, dif_pos hv]
  simp [Char.ofNatAux, Char.toNat, UInt32.toNat, UInt32.ofNat', Fin.ofNat']

/-- Lowercasing cannot produce a character below code point 97 unless the
input already was that character. -/
lemma char_toLower_inv {c t : Char} (ht : t.toNat < 97) (h : c.toLower = t) : c = t := by
  rw [Char.toLower] at h
  by_cases hc : c.toNat ≥ 65 ∧ c.toNat ≤ 90
  · rw [if_pos hc] at h
    have hn := congrArg Char.toNat h
    rw [toNat_ofNat_small (c.toNat + 32) (by omega)] at hn
    omega
  · rwa [if_neg hc] at h

/-! ## Lemmas about leftmost matches -/

/-- The position reported by `firstMatchPos` really matches. -/
lemma firstMatchPos_matches {pred : List Char → Bool} :
    ∀ {l : List Char} {i : Nat}, firstMatchPos pred l = some i → pred (l.drop i) = true := by
  intro l
  induction l with
  | nil =>
    intro i h
    by_cases hp : pred [] = true
    · simp only [firstMatchPos, if_pos hp, Option.some.injEq] at h
      subst h
      simpa using hp
    · simp only [firstMatchPos, if_neg hp] at h
      exact Option.noConfusion h
  | cons c cs ih =>
    intro i h
    by_cases hp : pred (c :: cs) = true
    · simp only [firstMatchPos, if_pos hp, Option.some.injEq] at h
      subst h
      simpa using hp
    · simp only [firstMatchPos, if_neg hp, Option.map_eq_some'] at h
      obtain ⟨a, ha, rfl⟩ := h
      rw [List.drop_succ_cons]
      exact ih ha

/-- Positions before the one reported by `firstMatchPos` do not match. -/
lemma firstMatchPos_min {pred : List Char → Bool} :
    ∀ {l : List Char} {i : Nat}, firstMatchPos pred l = some i →
      ∀ j, j < i → pred (l.drop j) = false := by
  intro l
  induction l with
  | nil =>
    intro i h j hj
    by_cases hp : pred [] = true
    · simp only [firstMatchPos, if_pos hp, Option.some.injEq] at h
      omega
    · simp only [firstMatchPos, if_neg hp] at h
      exact Option.noConfusion h
  | cons c cs ih =>
    intro i h j hj
    by_cases hp : pred (c :: cs) = true
    · simp only [firstMatchPos, if_pos hp, Option.some.injEq] at h
      omega
    · simp only [firstMatchPos, if_neg hp, Option.map_eq_some'] at h
      obtain ⟨a, ha, rfl⟩ := h
      cases j with
      | zero => simpa using hp
      | succ j2 =>
        rw [List.drop_succ_cons]
        exact ih ha j2 (by omega)

/-- When `firstMatchPos` reports no match, no position matches. -/
lemma firstMatchPos_none {pred : List Char → Bool} :
    ∀ {l : List Char}, firstMatchPos pred l = none → ∀ j, pred (l.drop j) = false := by
  intro l
  induction l with
  | nil =>
    intro h j
    by_cases hp : pred [] = true
    · simp only [firstMatchPos, if_pos hp] at h
      exact Option.noConfusion h
    · simpa using hp
  | cons c cs ih =>
    intro h j
    by_cases hp : pred (c :: cs) = true
    · simp only [firstMatchPos, if_pos hp] at h
      exact Option.noConfusion h
    · simp only [firstMatchPos, if_neg hp, Option.map_eq_none'] at h
      cases j with
      | zero => simpa using hp
      | succ j2 =>
        rw [List.drop_succ_cons]
        exact ih h j2

/-- When no position matches, `firstMatchPos` reports no match. -/
lemma firstMatchPos_none_of {pred : List Char → Bool} :
    ∀ {l : List Char}, (∀ j, pred (l.drop j) = false) → firstMatchPos pred l = none := by
  intro l
  induction l with
  | nil =>
    intro h
    have h0 : pred [] = false := by simpa using h 0
    simp [firstMatchPos, h0]
  | cons c cs ih =>
    intro h
    have h0 : pred (c :: cs) = false := by simpa using h 0
    simp only [firstMatchPos, h0, Bool.false_eq_true, if_false, Option.map_eq_none']
    exact ih (fun j => by simpa [List.drop_succ_cons] using h (j + 1))

/-! ## Contiguous segments and monotone patterns -/

/-- `m` occurs as a contiguous segment of `l`. -/
def SubSeg (m l : List Char) : Prop := ∃ a b, l = a ++ m ++ b

lemma subSeg_refl (l : List Char) : SubSeg l l := ⟨[], [], by simp⟩

lemma subSeg_trans {l m n : List Char} (h1 : SubSeg l m) (h2 : SubSeg m n) : SubSeg l n := by
  obtain ⟨a, b, rfl⟩ := h1
  obtain ⟨c, d, rfl⟩ := h2
  exact ⟨c ++ a, b ++ d, by simp⟩

lemma subSeg_take (l : List Char) (i : Nat) : SubSeg (l.take i) l :=
  ⟨[], l.drop i, by simp⟩

/-- Stripping whitespace from both ends keeps a contiguous segment. -/
lemma pyStrip_seg (l : List Char) : SubSeg (pyStrip l) l := by
  have h1 : l = l.takeWhile isPySpace ++ l.dropWhile isPySpace :=
    (List.takeWhile_append_dropWhile isPySpace l).symm
  set m := l.dropWhile isPySpace with hm
  have h2 : m.reverse = m.reverse.takeWhile isPySpace ++ m.reverse.dropWhile isPySpace :=
    (List.takeWhile_append_dropWhile isPySpace m.reverse).symm
  have h3 : m = (m.reverse.dropWhile isPySpace).reverse ++ (m.reverse.takeWhile isPySpace).reverse := by
    conv_lhs => rw [← List.reverse_reverse m, h2]
    rw [List.reverse_append]
  refine ⟨l.takeWhile isPySpace, (m.reverse.takeWhile isPySpace).reverse, ?_⟩
  rw [pyStrip, ← hm]
  conv_lhs => rw [h1, h3]
  simp only [List.append_assoc]

/-- Patterns closed under appending on the right: a match of the pattern
stays a match when the text is extended. -/
def MonoPred (pred : List Char → Bool) : Prop :=
  ∀ l t, pred l = true → pred (l ++ t) = true

/-- A monotone pattern matching a prefix of `l` matches `l`. -/
lemma monoPred_take {pred : List Char → Bool} (hm : MonoPred pred) {l : List Char} {n : Nat}
    (h : pred (l.take n) = true) : pred l = true := by
  have h2 := hm (l.take n) (l.drop n) h
  rwa [List.take_append_drop] at h2

/-- No position of `l` matches the pattern. -/
def NoOcc (pred : List Char → Bool) (l : List Char) : Prop :=
  ∀ j, pred (l.drop j) = false

/-- Absence of a monotone pattern passes to contiguous segments. -/
lemma noOcc_seg {pred : List Char → Bool} (hm : MonoPred pred) {l m : List Char}
    (h : NoOcc pred l) (hseg : SubSeg m l) : NoOcc pred m := by
  intro j
  cases hx : pred (m.drop j) with
  | false => rfl
  | true =>
    exfalso
    obtain ⟨a, b, rfl⟩ := hseg
    have hdec : a ++ m ++ b = (a ++ m.take j) ++ (m.drop j ++ b) := by
      conv_lhs => rw [← List.take_append_drop j m]
      simp only [List.append_assoc]
    have hdrop : (a ++ m ++ b).drop (a ++ m.take j).length = m.drop j ++ b := by
      rw [hdec, List.drop_left]
    have hmatch : pred ((a ++ m ++ b).drop (a ++ m.take j).length) = true := by
      rw [hdrop]
      exact hm _ _ hx
    rw [h ((a ++ m.take j).length)] at hmatch
    exact Bool.false_ne_true hmatch

/-- If no position before `i` matches and the pattern rejects the empty
text, then the pattern never occurs in `l.take i`. -/
lemma noOcc_take {pred : List Char → Bool} (hm : MonoPred pred) (hnil : pred [] = false)
    {l : List Char} {i : Nat} (hmin : ∀ j, j < i → pred (l.drop j) = false) :
    NoOcc pred (l.take i) := by
  intro j
  rcases Nat.lt_or_ge j i with hj | hj
  · cases hx : pred ((l.take i).drop j) with
    | false => rfl
    | true =>
      exfalso
      rw [List.drop_take] at hx
      have := monoPred_take hm hx
      rw [hmin j hj] at this
      exact Bool.false_ne_true this
  · have hempty : (l.take i).drop j = [] := by
      rw [List.drop_eq_nil_iff]
      have := List.length_take i l
      omega
    rw [hempty]
    exact hnil

/-! ## The marker patterns are monotone -/

lemma ciStarts_append {pat : List Char} :
    ∀ {l : List Char} (t : List Char), ciStarts pat l = true → ciStarts pat (l ++ t) = true := by
  induction pat with
  | nil => intro l t _; rfl
  | cons p ps ih =>
    intro l t h
    cases l with
    | nil => exact absurd h (by simp [ciStarts])
    | cons c cs =>
      simp only [List.cons_append, ciStarts, Bool.and_eq_true] at h ⊢
      exact ⟨h.1, ih t h.2⟩

lemma startsWs2_append : ∀ {l : List Char} (t : List Char),
    startsWs2 l = true → startsWs2 (l ++ t) = true := by
  intro l
  induction l with
  | nil => intro t h; exact absurd h (by simp [startsWs2])
  | cons c cs ih =>
    intro t h
    simp only [startsWs2] at h
    simp only [List.cons_append, startsWs2]
    by_cases h2 : c == '2'
    · rw [if_pos h2]
    · rw [if_neg h2] at h ⊢
      by_cases hws : isPySpace c = true
      · rw [if_pos hws] at h ⊢
        exact ih t h
      · rw [if_neg hws] at h
        exact absurd h (by simp)

lemma ciStarts_length {pat : List Char} :
    ∀ {l : List Char}, ciStarts pat l = true → pat.length ≤ l.length := by
  induction pat with
  | nil => intro l _; simp
  | cons p ps ih =>
    intro l h
    cases l with
    | nil => exact absurd h (by simp [ciStarts])
    | cons c cs =>
      simp only [ciStarts, Bool.and_eq_true] at h
      simpa using ih h.2

lemma p1Match_mono : MonoPred p1Match := by
  intro l t h
  exact ciStarts_append t h

lemma p3Match_mono : MonoPred p3Match := by
  intro l t h
  simp only [p3Match, Bool.and_eq_true] at h ⊢
  have hlen : 5 ≤ l.length := ciStarts_length h.1
  have hdrop : (l ++ t).drop 5 = l.drop 5 ++ t := by
    rw [List.drop_append_eq_append_drop]
    have h5 : 5 - l.length = 0 := by omega
    rw [h5, List.drop_zero]
  refine ⟨ciStarts_append t h.1, ?_⟩
  rw [hdrop]
  exact startsWs2_append t h.2

lemma isPrefixOf_append {p : List Char} :
    ∀ {l : List Char} (t : List Char), p.isPrefixOf l = true → p.isPrefixOf (l ++ t) = true := by
  induction p with
  | nil =>
    intro l t _
    cases l ++ t with
    | nil => rfl
    | cons c cs => rfl
  | cons a as ih =>
    intro l t h
    cases l with
    | nil => exact absurd h (by simp [List.isPrefixOf])
    | cons c cs =>
      simp only [List.cons_append, List.isPrefixOf, Bool.and_eq_true] at h ⊢
      exact ⟨h.1, ih t h.2⟩

lemma isPrefixOf_mono (p : List Char) : MonoPred (fun t => p.isPrefixOf t) := by
  intro l t h
  exact isPrefixOf_append t h

lemma isPrefixOf_nil {p : List Char} (hp : p ≠ []) : p.isPrefixOf [] = false := by
  cases p with
  | nil => exact absurd rfl hp
  | cons a as => rfl

lemma p3Match_nil : p3Match [] = false := by decide

/-- An exact-marker match is a loose-marker match. -/
lemma p1Match_p3Match {l : List Char} (h : p1Match l = true) : p3Match l = true := by
  have hsplit : ∀ {pat1 pat2 : List Char} {l2 : List Char},
      ciStarts (pat1 ++ pat2) l2 = true →
        ciStarts pat1 l2 = true ∧ ciStarts pat2 (l2.drop pat1.length) = true := by
    intro pat1
    induction pat1 with
    | nil => intro pat2 l2 h2; exact ⟨rfl, by simpa using h2⟩
    | cons p ps ih =>
      intro pat2 l2 h2
      cases l2 with
      | nil => exact absurd h2 (by simp [ciStarts])
      | cons c cs =>
        simp only [List.cons_append, ciStarts, Bool.and_eq_true] at h2
        obtain ⟨hc, hrest⟩ := h2
        obtain ⟨h1, h2⟩ := ih hrest
        refine ⟨by simp only [ciStarts, Bool.and_eq_true]; exact ⟨hc, h1⟩, ?_⟩
        simpa [List.drop_succ_cons] using h2
  have hme : markerExact = markerWord ++ [' ', '2'] := by decide
  rw [p1Match, hme] at h
  obtain ⟨h1, h2⟩ := hsplit h
  have hlen : markerWord.length = 5 := by decide
  rw [hlen] at h2
  rw [p3Match, Bool.and_eq_true]
  refine ⟨h1, ?_⟩
  cases hd : l.drop 5 with
  | nil => rw [hd] at h2; exact absurd h2 (by decide)
  | cons c5 rest =>
    rw [hd] at h2
    simp only [ciStarts, Bool.and_eq_true, beq_iff_eq] at h2
    obtain ⟨hc5, h2⟩ := h2
    cases rest with
    | nil => exact absurd h2 (by decide)
    | cons c6 rest2 =>
      simp only [ciStarts, Bool.and_eq_true, beq_iff_eq] at h2
      obtain ⟨hc6, -⟩ := h2
      have e5 : c5 = ' ' := char_toLower_inv (by decide) hc5
      have e6 : c6 = '2' := char_toLower_inv (by decide) hc6
      subst e5; subst e6
      show startsWs2 (' ' :: '2' :: rest2) = true
      rw [startsWs2, if_neg (by decide), if_pos (by decide), startsWs2,
        if_pos (by decide)]

/-! ## Cleaning lemmas -/

lemma markerConsistent_spec {x : List Char} {i : Nat} (h : markerConsistent x = true)
    (hi : firstMatchPos p1Match x = some i) : ∀ j, j < i → p3Match (x.drop j) = false := by
  intro j hj
  rw [markerConsistent, hi] at h
  have h2 := List.all_eq_true.mp h j (List.mem_range.mpr hj)
  simpa using h2

/-- On a marker-consistent text, the truncated result contains no loose
marker (and so no exact marker either). -/
lemma stripMarker_noOcc {x : List Char} (h : markerConsistent x = true) :
    NoOcc p3Match (stripMarker x) := by
  rw [stripMarker]
  cases h1 : firstMatchPos p1Match x with
  | some i =>
    have hmin : ∀ j, j < i → p3Match (x.drop j) = false := markerConsistent_spec h h1
    have htake : NoOcc p3Match (x.take i) := noOcc_take p3Match_mono p3Match_nil hmin
    exact noOcc_seg p3Match_mono htake (pyStrip_seg _)
  | none =>
    cases h3 : firstMatchPos p3Match x with
    | some i =>
      have hmin : ∀ j, j < i → p3Match (x.drop j) = false := firstMatchPos_min h3
      have htake : NoOcc p3Match (x.take i) := noOcc_take p3Match_mono p3Match_nil hmin
      exact noOcc_seg p3Match_mono htake (pyStrip_seg _)
    | none =>
      exact firstMatchPos_none h3

/-- A text with no loose-marker occurrence passes through the marker
truncation unchanged. -/
lemma stripMarker_of_noOcc {y : List Char} (h : NoOcc p3Match y) : stripMarker y = y := by
  have h1 : firstMatchPos p1Match y = none := by
    apply firstMatchPos_none_of
    intro j
    cases hx : p1Match (y.drop j) with
    | false => rfl
    | true =>
      have := p1Match_p3Match hx
      rw [h j] at this
      exact absurd this (by simp)
  have h3 : firstMatchPos p3Match y = none := firstMatchPos_none_of h
  rw [stripMarker, h1, h3]

/-- Pending truncation keeps a contiguous segment. -/
lemma stripPending_seg (p y : List Char) : SubSeg (stripPending p y) y := by
  rw [stripPending]
  by_cases hp : p = []
  · rw [if_pos hp]
    exact subSeg_refl y
  · rw [if_neg hp]
    cases hk : substrPos p y with
    | none => exact subSeg_refl y
    | some k =>
      show SubSeg (if 0 < k then pyStrip (y.take k) else y) y
      by_cases hk0 : 0 < k
      · rw [if_pos hk0]
        exact subSeg_trans (pyStrip_seg _) (subSeg_take y k)
      · rw [if_neg hk0]
        exact subSeg_refl y

/-- Pending truncation is idempotent. -/
lemma stripPending_idem (p y : List Char) : stripPending p (stripPending p y) = stripPending p y := by
  by_cases hp : p = []
  · simp [stripPending, hp]
  · cases hk : substrPos p y with
    | none =>
      have h1 : stripPending p y = y := by rw [stripPending, if_neg hp, hk]
      rw [h1]
      exact h1
    | some k =>
      by_cases hk0 : 0 < k
      · have h1 : stripPending p y = pyStrip (y.take k) := by
          rw [stripPending, if_neg hp, hk]
          show (if 0 < k then pyStrip (y.take k) else y) = pyStrip (y.take k)
          rw [if_pos hk0]
        have hmin : ∀ j, j < k → (fun t => p.isPrefixOf t) (y.drop j) = false :=
          firstMatchPos_min hk
        have hno : NoOcc (fun t => p.isPrefixOf t) (y.take k) :=
          noOcc_take (isPrefixOf_mono p) (isPrefixOf_nil hp) hmin
        have hno2 : NoOcc (fun t => p.isPrefixOf t) (pyStrip (y.take k)) :=
          noOcc_seg (isPrefixOf_mono p) hno (pyStrip_seg _)
        have h2 : substrPos p (pyStrip (y.take k)) = none := firstMatchPos_none_of hno2
        rw [h1, stripPending, if_neg hp, h2]
      · have h1 : stripPending p y = y := by
          rw [stripPending, if_neg hp, hk]
          show (if 0 < k then pyStrip (y.take k) else y) = y
          rw [if_neg hk0]
        rw [h1]
        exact h1

/-- Idempotence of the full cleaning, list level, under marker
consistency of the input. -/
lemma clean_idem {x : List Char} (p : List Char) (h : markerConsistent x = true) :
    clean (clean x p) p = clean x p := by
  have hy : NoOcc p3Match (stripMarker x) := stripMarker_noOcc h
  have hz : NoOcc p3Match (stripPending p (stripMarker x)) :=
    noOcc_seg p3Match_mono hy (stripPending_seg p _)
  show stripPending p (stripMarker (clean x p)) = clean x p
  rw [clean, stripMarker_of_noOcc hz, stripPending_idem]

/-! ## Lemmas about the say tool and the turn -/

lemma foldl_sayTool_history : ∀ (ts : List String) (s : AgentState),
    (ts.foldl sayTool s).global_message_history = s.global_message_history := by
  intro ts
  induction ts with
  | nil => intro s; rfl
  | cons t ts ih => intro s; exact ih (sayTool s t)

lemma foldl_sayTool_said_mono : ∀ (ts : List String) (s : AgentState),
    s.agent_said_something = true → (ts.foldl sayTool s).agent_said_something = true := by
  intro ts
  induction ts with
  | nil => intro s h; exact h
  | cons t ts ih => intro s _; exact ih (sayTool s t) rfl

lemma foldl_sayTool_said_ne (t : String) (ts : List String) (s : AgentState) :
    ((t :: ts).foldl sayTool s).agent_said_something = true :=
  foldl_sayTool_said_mono ts (sayTool s t) rfl

lemma foldl_sayTool_pending_ne :
    ∀ (ts : List String) (hne : ts ≠ []) (s : AgentState),
      (ts.foldl sayTool s).pending_message = some (ts.getLast hne) := by
  intro ts
  induction ts with
  | nil => intro hne; exact absurd rfl hne
  | cons t ts ih =>
    intro hne s
    cases ts with
    | nil => rfl
    | cons u us =>
      have h1 : ((t :: u :: us).foldl sayTool s) = ((u :: us).foldl sayTool (sayTool s t)) := rfl
      rw [h1, ih (by simp)]
      conv_rhs => rw [List.getLast_cons (by simp : u :: us ≠ [])]

lemma utterTexts_thought_map (l : List String) (r : List SinkCall) :
    utterTexts (l.map SinkCall.thought ++ r) = utterTexts r := by
  rw [utterTexts, utterTexts, List.filterMap_append, List.filterMap_map]
  have h : List.filterMap
      ((fun e => match e with | .utter t => some t | .thought _ => none) ∘ SinkCall.thought) l
      = ([] : List String) := by
    induction l with
    | nil => rfl
    | cons a as ih =>
      simp only [List.filterMap_cons]
      exact ih
  rw [h, List.nil_append]

lemma pendingUtterEvents_shape (o : Option String) :
    ∃ us : List String, pendingUtterEvents o = us.map SinkCall.utter := by
  cases o with
  | none => exact ⟨[], rfl⟩
  | some p =>
    by_cases hp : p ≠ ""
    · exact ⟨[p], by simp [pendingUtterEvents, hp]⟩
    · exact ⟨[], by simp [pendingUtterEvents, hp]⟩

/-- A sequence of `start_conversation` calls, applied in order. -/
def startRoomFold (s : AgentState) (rs : List (Int × List String)) : AgentState :=
  rs.foldl (fun acc r => startConversation acc r.1 r.2) s

lemma startRoomFold_participants :
    ∀ (rs : List (Int × List String)) (hne : rs ≠ []) (s : AgentState),
      (startRoomFold s rs).current_participants = (rs.getLast hne).2 ∧
      (startRoomFold s rs).all_persons = s.all_persons := by
  intro rs
  induction rs with
  | nil => intro hne; exact absurd rfl hne
  | cons r rs ih =>
    intro hne s
    cases rs with
    | nil => exact ⟨rfl, rfl⟩
    | cons u us =>
      have h1 : startRoomFold s (r :: u :: us)
          = startRoomFold (startConversation s r.1 r.2) (u :: us) := rfl
      obtain ⟨ha, hb⟩ := ih (by simp) (startConversation s r.1 r.2)
      refine ⟨?_, ?_⟩
      · rw [h1, ha]
        conv_rhs => rw [List.getLast_cons (by simp : u :: us ≠ [])]
      · rw [h1, hb]
        rfl

/-- Every modelled operation only ever appends to the global history. -/
lemma step_extends (s : AgentState) (op : Op) :
    ∃ t, (step s op).global_message_history = s.global_message_history ++ t := by
  cases op with
  | setAllPersons ps => exact ⟨[], by simp [step, setAllPersons]⟩
  | startConversation cid parts => exact ⟨[⟨Role.system, boundaryText cid parts⟩], rfl⟩
  | setSayCallback => exact ⟨[], by simp [step]⟩
  | setThoughtsCallback => exact ⟨[], by simp [step]⟩
  | listen who msg b =>
    cases b with
    | err ts =>
      refine ⟨[⟨Role.human, who ++ ": " ++ msg⟩], ?_⟩
      show ((ts.foldl sayTool (listenStart s who msg))).global_message_history = _
      rw [foldl_sayTool_history]
      rfl
    | ok ts nm =>
      refine ⟨[⟨Role.human, who ++ ": " ++ msg⟩] ++ nm, ?_⟩
      show (ts.foldl sayTool (listenStart s who msg)).global_message_history ++ nm = _
      rw [foldl_sayTool_history]
      simp [listenStart]

/-! ## Claims -/

/-- C1 (counterexample): the backend invokes `say` once with the empty
text; the pending slot is overwritten, yet the utterance sink is not
called at all — refuting "the utterance sink is called exactly once with
tN" for tN = "".  Python truthiness of the empty string skips the
callback at line 297. -/
theorem C1_empty_text_skips_utterance_sink :
    (listen initState "Alice" "hi" (BackendResult.ok [""] [])).events = [] ∧
    (listen initState "Alice" "hi" (BackendResult.ok [""] [])).state.pending_message
      = some "" := by
  exact ⟨rfl, rfl⟩

/-- C1 (amended): when generation returns normally after `say` invocations
with texts t1..tN and tN is non-empty, the pending slot holds exactly tN
and the utterance sink is called exactly once, with tN. -/
theorem C1_last_speak_wins (s : AgentState) (who msg : String) (ts : List String)
    (nm : List Msg) (hne : ts ≠ []) (hlast : ts.getLast hne ≠ "") :
    utterTexts (listen s who msg (BackendResult.ok ts nm)).events = [ts.getLast hne] ∧
    (listen s who msg (BackendResult.ok ts nm)).state.pending_message
      = some (ts.getLast hne) := by
  have hpend : (ts.foldl sayTool (listenStart s who msg)).pending_message
      = some (ts.getLast hne) := foldl_sayTool_pending_ne ts hne _
  constructor
  · show utterTexts
      ((nm.filterMap (processEntry (ts.foldl sayTool (listenStart s who msg)).pending_message)).map
          SinkCall.thought ++
        pendingUtterEvents (ts.foldl sayTool (listenStart s who msg)).pending_message) = _
    rw [utterTexts_thought_map, hpend, pendingUtterEvents, if_pos hlast]
    rfl
  · show (ts.foldl sayTool (listenStart s who msg)).pending_message = _
    exact hpend

/-- C1 (witness): two `say` invocations "a" then "b"; the sink receives
exactly ["b"]. -/
theorem C1_last_speak_wins_witness :
    utterTexts (listen initState "Alice" "hi" (BackendResult.ok ["a", "b"] [])).events = ["b"] ∧
    (listen initState "Alice" "hi" (BackendResult.ok ["a", "b"] [])).state.pending_message
      = some "b" :=
  C1_last_speak_wins initState "Alice" "hi" ["a", "b"] [] (by decide) (by decide)

/-- C2: in every turn the emitted callback calls are some reasoning-sink
calls followed by some utterance-sink calls — every thought precedes every
utterance, whatever the backend did internally. -/
theorem C2_thoughts_before_utterance (s : AgentState) (who msg : String) (b : BackendResult) :
    ∃ ts us : List String, (listen s who msg b).events
      = ts.map SinkCall.thought ++ us.map SinkCall.utter := by
  cases b with
  | err st => exact ⟨[], [], rfl⟩
  | ok st nm =>
    obtain ⟨us, hus⟩ :=
      pendingUtterEvents_shape (st.foldl sayTool (listenStart s who msg)).pending_message
    refine ⟨nm.filterMap (processEntry (st.foldl sayTool (listenStart s who msg)).pending_message),
      us, ?_⟩
    show (nm.filterMap (processEntry (st.foldl sayTool (listenStart s who msg)).pending_message)).map
        SinkCall.thought ++
      pendingUtterEvents (st.foldl sayTool (listenStart s who msg)).pending_message = _
    rw [hus]

/-- C3: when the generation call raises, the turn makes no callback call
of either kind, `listen` still returns a state (the exception is
swallowed), and the incoming user message stays appended to the global
history. -/
theorem C3_generation_failure_is_silent (s : AgentState) (who msg : String) (ts : List String) :
    (listen s who msg (BackendResult.err ts)).events = [] ∧
    (listen s who msg (BackendResult.err ts)).state.global_message_history
      = s.global_message_history ++ [⟨Role.human, who ++ ": " ++ msg⟩] := by
  refine ⟨rfl, ?_⟩
  show (ts.foldl sayTool (listenStart s who msg)).global_message_history = _
  rw [foldl_sayTool_history]
  rfl

/-- C4: when the backend never invokes `say`, the utterance sink is not
called and the spoke flag is false at the end of the turn. -/
theorem C4_no_speak_no_utterance (s : AgentState) (who msg : String) (b : BackendResult)
    (h : b.sayTexts = []) :
    utterTexts (listen s who msg b).events = [] ∧
    (listen s who msg b).state.agent_said_something = false := by
  cases b with
  | err ts =>
    have hts : ts = [] := h
    subst hts
    exact ⟨rfl, rfl⟩
  | ok ts nm =>
    have hts : ts = [] := h
    subst hts
    constructor
    · show utterTexts
        ((nm.filterMap (processEntry (listenStart s who msg).pending_message)).map
            SinkCall.thought ++
          pendingUtterEvents (listenStart s who msg).pending_message) = []
      rw [utterTexts_thought_map]
      rfl
    · rfl

/-- C4 (witness): a turn that produces one reasoning entry and no `say`
invocation: no utterance-sink call, spoke flag false. -/
theorem C4_no_speak_no_utterance_witness :
    utterTexts (listen initState "Alice" "hi"
      (BackendResult.ok [] [⟨Role.ai, "thinking"⟩])).events = [] ∧
    (listen initState "Alice" "hi"
      (BackendResult.ok [] [⟨Role.ai, "thinking"⟩])).state.agent_said_something = false :=
  C4_no_speak_no_utterance initState "Alice" "hi" (BackendResult.ok [] [⟨Role.ai, "thinking"⟩]) rfl

/-- C5: the global message history is append-only — the history after any
run of operations is a prefix of the history after that run extended by
any further operations. -/
theorem C5_history_append_only (s : AgentState) (ops more : List Op) :
    (ops.foldl step s).global_message_history <+:
      ((ops ++ more).foldl step s).global_message_history := by
  rw [List.foldl_append]
  generalize ops.foldl step s = s0
  induction more generalizing s0 with
  | nil => exact List.prefix_rfl
  | cons op rest ih =>
    obtain ⟨t, ht⟩ := step_extends s0 op
    exact List.IsPrefix.trans ⟨t, ht.symm⟩ (ih (step s0 op))

/-- C6 (counterexample): cleaning is not idempotent.  On the text
"Phase  2Phase 2" (two spaces, then one), the first pass truncates at the
exact marker and breaks out of the pattern loop, leaving the loose marker
"Phase  2" in the prefix; a second pass truncates again — so
clean(clean(x, p), p) differs from clean(x, p). -/
theorem C6_clean_not_idempotent :
    cleanStr (cleanStr "Phase  2Phase 2" "") "" ≠ cleanStr "Phase  2Phase 2" "" := by
  decide

/-- C6 (amended): cleaning is idempotent on every input in which no
loose-marker occurrence starts strictly before the first exact-marker
occurrence (`markerConsistent`) — in particular on all texts whose phase
markers are written exactly "Phase 2". -/
theorem C6_clean_idempotent_of_markerConsistent (x p : String)
    (h : markerConsistent x.toList = true) :
    cleanStr (cleanStr x p) p = cleanStr x p := by
  show String.mk (clean (String.mk (clean x.toList p.toList)).toList p.toList)
    = String.mk (clean x.toList p.toList)
  have hl : (String.mk (clean x.toList p.toList)).toList = clean x.toList p.toList := rfl
  rw [hl, clean_idem p.toList h]

/-- C6 (witness): a typical reasoning text with a single exact phase
marker, cleaned against its pending reply, is a fixed point of a second
cleaning. -/
theorem C6_clean_idempotent_witness :
    cleanStr (cleanStr "I wonder. Phase 2: hello" "hello") "hello"
      = cleanStr "I wonder. Phase 2: hello" "hello" :=
  C6_clean_idempotent_of_markerConsistent "I wonder. Phase 2: hello" "hello" (by decide)

/-- C7 (counterexample): a reasoning entry whose cleaned result is the
single space " " — whitespace-only but non-empty — is still forwarded to
the reasoning sink: line 293 tests Python truthiness (non-emptiness), not
whitespace-onlyness, and no truncation strips an untouched entry. -/
theorem C7_whitespace_only_thought_forwarded :
    cleanStr " " "" = " " ∧
    (" ".toList.all isPySpace) = true ∧
    processEntry none ⟨Role.ai, " "⟩ = some " " := by
  exact ⟨rfl, rfl, rfl⟩

/-- C7 (amended): a reasoning-bearing entry whose cleaned result is the
empty string is suppressed — the reasoning sink is not called for it.
(Truncated entries are stripped, so a truncation that leaves only
whitespace yields "" and is suppressed; only untouched whitespace-only
entries slip through, as the counterexample shows.) -/
theorem C7_empty_clean_suppressed (pending : Option String) (m : Msg)
    (h : cleanStr m.content (pending.getD "") = "") :
    processEntry pending m = none := by
  simp [processEntry, h]

/-- C7 (witness): an entry that is pure phase-2 marker cleans to "" and is
suppressed. -/
theorem C7_empty_clean_suppressed_witness :
    cleanStr "Phase 2: hi" ((none : Option String).getD "") = "" ∧
    processEntry none ⟨Role.ai, "Phase 2: hi"⟩ = none :=
  ⟨by decide, C7_empty_clean_suppressed none ⟨Role.ai, "Phase 2: hi"⟩ (by decide)⟩

/-- C8: after registering persons, following any non-empty sequence of
`start_conversation` calls the active participant list is that of the
most recent call, and the absentee list is exactly the registered persons
not in it, in registration order. -/
theorem C8_active_room_tracks_last_start (s : AgentState) (persons : List String)
    (rs : List (Int × List String)) (hne : rs ≠ []) :
    (startRoomFold (setAllPersons s persons) rs).current_participants = (rs.getLast hne).2 ∧
    absentees (startRoomFold (setAllPersons s persons) rs)
      = persons.filter (fun p => !((rs.getLast hne).2.contains p)) := by
  obtain ⟨h1, h2⟩ := startRoomFold_participants rs hne (setAllPersons s persons)
  refine ⟨h1, ?_⟩
  rw [absentees, h1, h2]
  rfl

/-- C8 (witness): persons Alice and Bob, one room with Bob only: the
active participants are [Bob] and the absentees exactly [Alice]. -/
theorem C8_active_room_witness :
    (startRoomFold (setAllPersons initState ["Alice", "Bob"])
      [((1 : Int), ["Bob"])]).current_participants = ["Bob"] ∧
    absentees (startRoomFold (setAllPersons initState ["Alice", "Bob"])
      [((1 : Int), ["Bob"])]) = ["Alice"] := by
  have h := C8_active_room_tracks_last_start initState ["Alice", "Bob"]
    [((1 : Int), ["Bob"])] (by decide)
  exact ⟨h.1, by rw [h.2]; decide⟩

/-- C9 (counterexample): `start_conversation` called with an empty
participants list does not fail — no `InvalidRoomError` exists anywhere in
the code — but records conversation 1 as active with no participants and
appends the boundary message. -/
theorem C9_empty_participants_accepted :
    (startConversation (setAllPersons initState ["Alice"]) 1 []).current_conversation_id
      = some 1 ∧
    (startConversation (setAllPersons initState ["Alice"]) 1 []).current_participants = [] ∧
    (startConversation (setAllPersons initState ["Alice"]) 1 []).global_message_history
      = [⟨Role.system, boundaryText 1 []⟩] := by
  exact ⟨rfl, rfl, rfl⟩

/-- C9 (amended): `start_conversation` performs no validation whatsoever:
for every state and every participants list — empty or containing
unregistered persons — it succeeds, records the conversation as active
with exactly the given participants, and appends one boundary message. -/
theorem C9_start_conversation_never_fails (s : AgentState) (cid : Int)
    (parts : List String) :
    (startConversation s cid parts).current_conversation_id = some cid ∧
    (startConversation s cid parts).current_participants = parts ∧
    (startConversation s cid parts).global_message_history
      = s.global_message_history ++ [⟨Role.system, boundaryText cid parts⟩] :=
  ⟨rfl, rfl, rfl⟩

/-- C10: when the backend invokes `say` at least once and the generation
call then raises, the spoke flag `agent_said_something` remains true at
the end of the turn although no sink was called and no generated entry
was appended — the flag and the observable silent turn disagree. -/
theorem C10_spoke_flag_survives_failure (s : AgentState) (who msg t : String)
    (ts : List String) :
    (listen s who msg (BackendResult.err (t :: ts))).state.agent_said_something = true ∧
    (listen s who msg (BackendResult.err (t :: ts))).events = [] ∧
    (listen s who msg (BackendResult.err (t :: ts))).state.global_message_history
      = s.global_message_history ++ [⟨Role.human, who ++ ": " ++ msg⟩] := by
  refine ⟨?_, rfl, ?_⟩
  · show ((t :: ts).foldl sayTool (listenStart s who msg)).agent_said_something = true
    exact foldl_sayTool_said_ne t ts _
  · show ((t :: ts).foldl sayTool (listenStart s who msg)).global_message_history = _
    rw [foldl_sayTool_history]
    rfl

end ChatAgentModel
